import Mathlib

/-!
Verification of the firmware image-patching subsystem of the
phreaknic26-badge-server repository.

The embedding models `app/services/patch_firmware_image.py` (pixel codec and
firmware patcher) and the hash-rendering step of
`app/services/firmware_builder.py`. Byte strings are modelled as `List Nat`
(each element a byte value); Python's fallible `RuntimeError` paths become
`Except String`; `bytes.find(sub, start)` becomes `findSub`; slice assignment
on a `bytearray` copy becomes the pure `splice`. The external `hashlib.sha256`
collaborator is modelled by an executable FIPS 180-4 SHA-256 over byte lists,
validated below against the standard test vectors.
-/

/-- Check whether `sub` occurs at the head of `rest` (byte-wise equality of a
leading segment). -/
def subAt : List Nat → List Nat → Bool
  | [], _ => true
  | _ :: _, [] => false
  | s :: ss, d :: ds => s == d && subAt ss ds

/-- Auxiliary scan for `findSub`: `i` is the absolute index of the head of
`rest` within the full data. -/
def findSubAux (sub : List Nat) : List Nat → Nat → Option Nat
  | [], i => if subAt sub [] then some i else none
  | d :: rest, i =>
    if subAt sub (d :: rest) then some i else findSubAux sub rest (i + 1)

/-- Model of Python's `data.find(sub, start)` (returning `none` for `-1`):
the least index `i ≥ start` at which `sub` occurs in `data`. -/
def findSub (data sub : List Nat) (start : Nat) : Option Nat :=
  findSubAux sub (data.drop start) start

/-- Model of Python's equal-length slice assignment
`buf[a : a + len(new)] = new` on a copy: replace `new.length` bytes of `l`
starting at position `a`. -/
def splice (l : List Nat) (a : Nat) (new : List Nat) : List Nat :=
  l.take a ++ new ++ l.drop (a + new.length)

/-- Big-endian bytes of `n`, `len` bytes wide (used for the SHA-256 length
field and word serialization). -/
def natToBytesBE (n len : Nat) : List Nat :=
  (List.range len).map (fun i => (n >>> (8 * (len - 1 - i))) % 256)

/-- Reduction modulo 2^32, the word size of SHA-256. -/
def w32 (n : Nat) : Nat := n % 4294967296

/-- Rotate a 32-bit word right by `n` positions. -/
def rotr (x n : Nat) : Nat := w32 (Nat.lor (x >>> n) (x <<< (32 - n)))

/-- SHA-256 choice function (the complement is taken by xor against the
32-bit all-ones mask, since the inputs are reduced words). -/
def ch (x y z : Nat) : Nat :=
  Nat.xor (Nat.land x y) (Nat.land (Nat.xor x 4294967295) z)

/-- SHA-256 majority function. -/
def maj (x y z : Nat) : Nat :=
  Nat.xor (Nat.xor (Nat.land x y) (Nat.land x z)) (Nat.land y z)

/-- SHA-256 big sigma 0. -/
def bigSigma0 (x : Nat) : Nat :=
  Nat.xor (Nat.xor (rotr x 2) (rotr x 13)) (rotr x 22)

/-- SHA-256 big sigma 1. -/
def bigSigma1 (x : Nat) : Nat :=
  Nat.xor (Nat.xor (rotr x 6) (rotr x 11)) (rotr x 25)

/-- SHA-256 small sigma 0. -/
def smallSigma0 (x : Nat) : Nat :=
  Nat.xor (Nat.xor (rotr x 7) (rotr x 18)) (x >>> 3)

/-- SHA-256 small sigma 1. -/
def smallSigma1 (x : Nat) : Nat :=
  Nat.xor (Nat.xor (rotr x 17) (rotr x 19)) (x >>> 10)

/-- The 64 SHA-256 round constants, written in decimal. -/
def sha256K : List Nat :=
  [1116352408, 1899447441, 3049323471, 3921009573,
   961987163, 1508970993, 2453635748, 2870763221,
   3624381080, 310598401, 607225278, 1426881987,
   1925078388, 2162078206, 2614888103, 3248222580,
   3835390401, 4022224774, 264347078, 604807628,
   770255983, 1249150122, 1555081692, 1996064986,
   2554220882, 2821834349, 2952996808, 3210313671,
   3336571891, 3584528711, 113926993, 338241895,
   666307205, 773529912, 1294757372, 1396182291,
   1695183700, 1986661051, 2177026350, 2456956037,
   2730485921, 2820302411, 3259730800, 3345764771,
   3516065817, 3600352804, 4094571909, 275423344,
   430227734, 506948616, 659060556, 883997877,
   958139571, 1322822218, 1537002063, 1747873779,
   1955562222, 2024104815, 2227730452, 2361852424,
   2428436474, 2756734187, 3204031479, 3329325298]

/-- The SHA-256 initial hash value, written in decimal. -/
def sha256H0 : List Nat :=
  [1779033703, 3144134277, 1013904242, 2773480762,
   1359893119, 2600822924, 528734635, 1541459225]

/-- Group bytes into big-endian 32-bit words (the input length is a multiple
of 4 at every use site). -/
def bytesToWords : List Nat → List Nat
  | a :: b :: c :: d :: rest =>
    (a * 16777216 + b * 65536 + c * 256 + d) :: bytesToWords rest
  | _ => []

/-- Structural worker for `toBlocks`; the fuel is an upper bound on the
number of blocks and never runs out when seeded with the list length. -/
def toBlocksAux : Nat → List Nat → List (List Nat)
  | _, [] => []
  | 0, _ => []
  | fuel + 1, x :: rest => (x :: rest.take 63) :: toBlocksAux fuel (rest.drop 63)

/-- Split a padded message into 64-byte blocks. -/
def toBlocks (l : List Nat) : List (List Nat) :=
  toBlocksAux l.length l

/-- Extend the 16 message words of a block to the 64-entry message schedule. -/
def sched (ws : List Nat) : List Nat :=
  (List.range 48).foldl
    (fun w i =>
      w ++ [w32 (smallSigma1 (w.getD (i + 14) 0) + w.getD (i + 9) 0 +
                 smallSigma0 (w.getD (i + 1) 0) + w.getD i 0)])
    ws

/-- One SHA-256 compression round: the state is the eight working variables
`[a, b, c, d, e, f, g, h]`, and `kw` pairs the round constant with the
schedule word. -/
def sha256Round (st : List Nat) (kw : Nat × Nat) : List Nat :=
  match st with
  | [a, b, c, d, e, f, g, h] =>
    let t1 := w32 (h + bigSigma1 e + ch e f g + kw.1 + kw.2)
    let t2 := w32 (bigSigma0 a + maj a b c)
    [w32 (t1 + t2), a, b, c, w32 (d + t1), e, f, g]
  | _ => st

/-- Compress one 64-byte block into the running hash value. -/
def sha256Compress (H : List Nat) (block : List Nat) : List Nat :=
  let st := (sha256K.zip (sched (bytesToWords block))).foldl sha256Round H
  (H.zip st).map (fun p => w32 (p.1 + p.2))

/-- FIPS 180-4 padding: append `0x80`, zeros to 56 mod 64, and the bit length
as 8 big-endian bytes. -/
def sha256pad (msg : List Nat) : List Nat :=
  msg ++ 0x80 :: List.replicate ((120 - (msg.length + 1) % 64) % 64) 0 ++
    natToBytesBE (8 * msg.length) 8

/-- Model of the `hashlib.sha256(...).digest()` collaborator: the 32-byte
SHA-256 digest of a byte list. -/
def sha256 (msg : List Nat) : List Nat :=
  ((toBlocks (sha256pad msg)).foldl sha256Compress sha256H0).foldr
    (fun w acc => natToBytesBE w 4 ++ acc) []

/-- Model of the binarization in `_image_to_pixel_data` (lines 32-34):
`img.point(lambda x: 255 if x > threshold else 0, mode="1")` with the fixed
`threshold = 128`, applied to one luminance value. -/
def threshold_pixel (lum : Nat) : Nat := if lum > 128 then 255 else 0

/-- Model of the inner byte-packing loop of `_image_to_pixel_data`
(lines 42-49): build the byte for byte column `byte_x` of row `y`, setting
bit `7 - bit` when the pixel at `x = byte_x * 8 + bit` is within the width
and its binarized value is positive. The raster after resize and grayscale
conversion is abstracted as the luminance function `lum`. -/
def packByte (lum : Nat → Nat → Nat) (width y byte_x : Nat) : Nat :=
  (List.range 8).foldl
    (fun byte_val bit =>
      if byte_x * 8 + bit < width then
        if threshold_pixel (lum (byte_x * 8 + bit) y) > 0 then
          byte_val ||| (1 <<< (7 - bit))
        else byte_val
      else byte_val)
    0

/-- Model of `_image_to_pixel_data` (lines 28-51) after the PIL resize and
grayscale steps: the raster is `lum` with dimensions exactly
`width × height`, and the rows are packed top-to-bottom with
`bytes_per_row = (width + 7) / 8` bytes each. -/
def image_to_pixel_data (lum : Nat → Nat → Nat) (width height : Nat) :
    List Nat :=
  ((List.range height).map
    (fun y => (List.range ((width + 7) / 8)).map (packByte lum width y))).flatten

/-- The 9-byte image-start marker `MAGIC_START` (line 22). -/
def MAGIC_START : List Nat := [0x45, 0x41, 0x54, 0x46, 0x52, 0x55, 0x49, 0x54, 0x53]

/-- The 10-byte image-end marker `MAGIC_END` (line 23). -/
def MAGIC_END : List Nat := [0x43, 0x52, 0x55, 0x4D, 0x50, 0x53, 0x50, 0x41, 0x43, 0x45]

/-- The 8-byte hash-start marker `HASH_MAGIC_START` (line 24). -/
def HASH_MAGIC_START : List Nat := [0x48, 0x41, 0x53, 0x48, 0x44, 0x41, 0x54, 0x41]

/-- The 7-byte hash-end marker `HASH_MAGIC_END` (line 25). -/
def HASH_MAGIC_END : List Nat := [0x48, 0x41, 0x53, 0x48, 0x45, 0x4E, 0x44]

/-- Model of `find_image_data_location` (lines 80-95): locate the image slot
via the first occurrence of `MAGIC_START` and the first occurrence of
`MAGIC_END` from the end of the start marker; the Python triple of `None`s
becomes `none`, and a successful triple `(image_start, image_size,
end_offset)` becomes `some`. -/
def find_image_data_location (firmware_data : List Nat) :
    Option (Nat × Nat × Nat) :=
  match findSub firmware_data MAGIC_START 0 with
  | none => none
  | some start_offset =>
    match findSub firmware_data MAGIC_END (start_offset + MAGIC_START.length) with
    | none => none
    | some end_offset =>
      some (start_offset + MAGIC_START.length,
            end_offset - (start_offset + MAGIC_START.length), end_offset)

/-- Model of `find_hash_location` (lines 97-112): locate the hash slot via
the first occurrence of `HASH_MAGIC_START` and the first occurrence of
`HASH_MAGIC_END` from the end of the start marker. -/
def find_hash_location (firmware_data : List Nat) : Option (Nat × Nat) :=
  match findSub firmware_data HASH_MAGIC_START 0 with
  | none => none
  | some start_offset =>
    match findSub firmware_data HASH_MAGIC_END
        (start_offset + HASH_MAGIC_START.length) with
    | none => none
    | some end_offset =>
      some (start_offset + HASH_MAGIC_START.length,
            end_offset - (start_offset + HASH_MAGIC_START.length))

/-- The tuple returned by `patch_firmware_bytes` (line 146): patched bytes,
image offset and size, the truncated hash, and the optional hash offset and
size. -/
structure PatchResult where
  patched : List Nat
  image_start : Nat
  image_size : Nat
  hash_bytes : List Nat
  hash_start : Option Nat
  hash_size : Option Nat
deriving DecidableEq, Repr

instance {ε α : Type} [DecidableEq ε] [DecidableEq α] :
    DecidableEq (Except ε α) := fun x y =>
  match x, y with
  | Except.ok a, Except.ok b =>
    if h : a = b then Decidable.isTrue (by rw [h])
    else Decidable.isFalse (fun hc => h (Except.ok.inj hc))
  | Except.ok _, Except.error _ => Decidable.isFalse (fun hc => Except.noConfusion hc)
  | Except.error _, Except.ok _ => Decidable.isFalse (fun hc => Except.noConfusion hc)
  | Except.error e1, Except.error e2 =>
    if h : e1 = e2 then Decidable.isTrue (by rw [h])
    else Decidable.isFalse (fun hc => h (Except.error.inj hc))

/-- Model of `patch_firmware_bytes` (lines 115-146): locate the image slot,
check the size, splice the new image data into a copy, compute the truncated
SHA-256 hash, and splice it into the hash slot when one is located in the
already-image-patched data; each `raise RuntimeError` becomes
`Except.error` with the message of the source. -/
def patch_firmware_bytes (firmware_bytes new_image_data : List Nat) :
    Except String PatchResult :=
  match find_image_data_location firmware_bytes with
  | none =>
    Except.error
      "Could not find image data in firmware. Ensure the binary includes the expected magic bytes."
  | some (image_start, image_size, _) =>
    if new_image_data.length ≠ image_size then
      Except.error ("Image size mismatch. Firmware expects " ++
        toString image_size ++ " bytes but received " ++
        toString new_image_data.length ++ " bytes.")
    else
      let firmware_data := splice firmware_bytes image_start new_image_data
      let hash_bytes := (sha256 new_image_data).take 8
      match find_hash_location firmware_data with
      | none =>
        Except.ok ⟨firmware_data, image_start, image_size, hash_bytes, none, none⟩
      | some (hash_start, hash_size) =>
        if hash_size ≠ 8 then
          Except.error ("Hash size mismatch. Expected 8 bytes but firmware reserves "
            ++ toString hash_size ++ " bytes.")
        else
          Except.ok ⟨splice firmware_data hash_start hash_bytes, image_start,
            image_size, hash_bytes, some hash_start, some hash_size⟩

/-- Lowercase hex digit for a value below 16, as produced by Python's
`bytes.hex()`. -/
def hexDigit (n : Nat) : Char :=
  if n < 10 then Char.ofNat (48 + n) else Char.ofNat (87 + n)

/-- Model of Python's `bytes.hex()`: two lowercase hex digits per byte. -/
def bytesHex (bs : List Nat) : List Char :=
  bs.foldr (fun b acc => hexDigit (b / 16 % 16) :: hexDigit (b % 16) :: acc) []

/-- Model of the hash rendering of `generate_firmware_from_image`
(`app/services/firmware_builder.py` line 69): `hash_bytes.hex().upper()`. -/
def firmware_hash_of (hash_bytes : List Nat) : List Char :=
  (bytesHex hash_bytes).map Char.toUpper

/-- Occurrence predicate: the byte string `sub` occurs in `data` starting at
index `i`. -/
def occursAt (data sub : List Nat) (i : Nat) : Prop :=
  subAt sub (data.drop i) = true

instance (data sub : List Nat) (i : Nat) : Decidable (occursAt data sub i) :=
  inferInstanceAs (Decidable (_ = _))

/-- The uppercase hexadecimal alphabet used by the rendered hash. -/
def hexUpperChars : List Char := "0123456789ABCDEF".toList

/-- Concrete firmware template with a 3-byte image slot and no hash region,
used to instantiate the claims on explicit inputs. -/
def fwImageOnly : List Nat := MAGIC_START ++ [0, 0, 0] ++ MAGIC_END

/-- A second concrete firmware template with a different 3-byte image slot
content and no hash region. -/
def fwImageOnly2 : List Nat := MAGIC_START ++ [5, 5, 5] ++ MAGIC_END

/-- Concrete firmware template with a 2-byte image slot and a well-formed
8-byte hash region. -/
def fwWithHash : List Nat :=
  MAGIC_START ++ [7, 7] ++ MAGIC_END ++
    HASH_MAGIC_START ++ List.replicate 8 0 ++ HASH_MAGIC_END

/-- Concrete firmware template whose image slot is empty and whose hash
region declares 1 byte instead of 8. -/
def fwHashSlotBad : List Nat :=
  MAGIC_START ++ MAGIC_END ++ HASH_MAGIC_START ++ [0] ++ HASH_MAGIC_END

/-- Concrete firmware template with a 23-byte image slot and no hash markers
anywhere. -/
def fwPlainSlot23 : List Nat :=
  MAGIC_START ++ List.replicate 23 0 ++ MAGIC_END

/-- Concrete 23-byte pixel buffer that itself spells out a complete hash
marker pair around an 8-byte slot. -/
def pixHashMarkers : List Nat :=
  HASH_MAGIC_START ++ List.replicate 8 0 ++ HASH_MAGIC_END

/-- Concrete firmware template that contains the hash-start marker but no
hash-end marker, with a 7-byte image slot. -/
def fwHashStartOnly : List Nat :=
  HASH_MAGIC_START ++ MAGIC_START ++ List.replicate 7 0 ++ MAGIC_END

/-- Concrete firmware template containing two image marker pairs, to witness
first-occurrence semantics. -/
def fwTwoRegions : List Nat :=
  MAGIC_START ++ [1] ++ MAGIC_END ++ MAGIC_START ++ [2, 2] ++ MAGIC_END

/-- Concrete luminance raster used to instantiate the codec claims: a
checkerboard of luminance 200 and 0. -/
def lumStripes : Nat → Nat → Nat :=
  fun x y => if (x + y) % 2 == 0 then 200 else 0

/-- Characterization of `subAt`: `sub` heads `rest` exactly when taking
`sub.length` elements of `rest` recovers `sub` and `rest` is long enough. -/
theorem subAt_iff (sub : List Nat) :
    ∀ rest, subAt sub rest = true ↔
      rest.take sub.length = sub ∧ sub.length ≤ rest.length := by
  induction sub with
  | nil => intro rest; simp [subAt]
  | cons s ss ih =>
    intro rest
    cases rest with
    | nil => simp [subAt]
    | cons d ds =>
      simp only [subAt, Bool.and_eq_true, beq_iff_eq, ih, List.length_cons,
        List.take_succ_cons, List.cons.injEq]
      constructor
      · rintro ⟨h1, h2, h3⟩
        exact ⟨⟨h1.symm, h2⟩, by omega⟩
      · rintro ⟨⟨h1, h2⟩, h3⟩
        exact ⟨h1.symm, h2, by omega⟩

/-- Specification of the scanning worker: a `some k` result means a match at
`k` and no match at any earlier scanned position. -/
theorem findSubAux_some (sub : List Nat) :
    ∀ (rest : List Nat) (i k : Nat), findSubAux sub rest i = some k →
      i ≤ k ∧ subAt sub (rest.drop (k - i)) = true ∧
      ∀ j, i ≤ j → j < k → subAt sub (rest.drop (j - i)) = false := by
  intro rest
  induction rest with
  | nil =>
    intro i k h
    rw [findSubAux] at h
    split at h
    · cases h
      refine ⟨Nat.le_refl _, by simpa using ‹subAt sub [] = true›, ?_⟩
      intro j hj1 hj2; omega
    · cases h
  | cons d rest ih =>
    intro i k h
    rw [findSubAux] at h
    split at h
    · cases h
      refine ⟨Nat.le_refl _, by simpa using ‹subAt sub (d :: rest) = true›, ?_⟩
      intro j hj1 hj2; omega
    · obtain ⟨h1, h2, h3⟩ := ih (i + 1) k h
      refine ⟨by omega, ?_, ?_⟩
      · have hk : k - i = (k - (i + 1)) + 1 := by omega
        rw [hk, List.drop_succ_cons]
        exact h2
      · intro j hj1 hj2
        rcases Nat.eq_or_lt_of_le hj1 with hj | hj
        · subst hj
          simpa using Bool.of_not_eq_true (by simpa using ‹¬ subAt sub (d :: rest) = true›)
        · have hji : j - i = (j - (i + 1)) + 1 := by omega
          rw [hji, List.drop_succ_cons]
          exact h3 j (by omega) hj2

/-- Specification of `findSub`: a `some k` result is an occurrence at `k`,
no earlier than `start`, and minimal among occurrences at or after
`start`. -/
theorem findSub_spec (data sub : List Nat) (start k : Nat)
    (h : findSub data sub start = some k) :
    start ≤ k ∧ occursAt data sub k ∧
      ∀ j, start ≤ j → j < k → ¬ occursAt data sub j := by
  unfold findSub at h
  obtain ⟨h1, h2, h3⟩ := findSubAux_some sub (data.drop start) start k h
  have hdrop : ∀ j, start ≤ j → (data.drop start).drop (j - start) = data.drop j := by
    intro j hj
    rw [List.drop_drop]
    congr 1
    omega
  refine ⟨h1, ?_, ?_⟩
  · unfold occursAt
    rw [← hdrop k h1]
    exact h2
  · intro j hj1 hj2 hocc
    unfold occursAt at hocc
    rw [← hdrop j hj1] at hocc
    rw [h3 j hj1 hj2] at hocc
    cases hocc

/-- An occurrence of a nonempty `sub` at `i` lies entirely inside `data`. -/
theorem occursAt_length_le (data sub : List Nat) (i : Nat)
    (hs : 0 < sub.length) (h : occursAt data sub i) :
    i + sub.length ≤ data.length := by
  have h2 := ((subAt_iff sub (data.drop i)).mp h).2
  rw [List.length_drop] at h2
  omega

/-- Reading back `sub.length` bytes at an occurrence of `sub` yields `sub`. -/
theorem occursAt_readback (data sub : List Nat) (i : Nat)
    (h : occursAt data sub i) : (data.drop i).take sub.length = sub :=
  ((subAt_iff sub (data.drop i)).mp h).1

/-- Splicing inside the buffer preserves its length. -/
theorem splice_length (l new : List Nat) (a : Nat)
    (h : a + new.length ≤ l.length) : (splice l a new).length = l.length := by
  simp only [splice, List.length_append, List.length_take, List.length_drop]
  omega

/-- Bytes strictly before the spliced region are unchanged. -/
theorem splice_getElem?_left (l new : List Nat) (a i : Nat)
    (ha : a ≤ l.length) (hi : i < a) : (splice l a new)[i]? = l[i]? := by
  have hta : (List.take a l).length = a := by
    rw [List.length_take]; omega
  rw [splice, List.append_assoc, List.getElem?_append, if_pos (by omega),
    List.getElem?_take, if_pos hi]

/-- Bytes at or beyond the end of the spliced region are unchanged. -/
theorem splice_getElem?_right (l new : List Nat) (a i : Nat)
    (ha : a ≤ l.length) (hi : a + new.length ≤ i) :
    (splice l a new)[i]? = l[i]? := by
  have hta : (List.take a l).length = a := by
    rw [List.length_take]; omega
  have hlen : (List.take a l ++ new).length = a + new.length := by
    rw [List.length_append, hta]
  rw [splice, List.getElem?_append_right (by omega), List.getElem?_drop]
  congr 1
  rw [hlen]
  omega

/-- Bytes inside the spliced region come from the new content. -/
theorem splice_getElem?_inside (l new : List Nat) (a n : Nat)
    (ha : a ≤ l.length) (hn : n < new.length) :
    (splice l a new)[a + n]? = new[n]? := by
  have hta : (List.take a l).length = a := by
    rw [List.length_take]; omega
  rw [splice, List.append_assoc, List.getElem?_append,
    if_neg (by omega), List.getElem?_append, hta]
  rw [if_pos (by omega)]
  congr 1
  omega

/-- Reading the spliced region back out of a splice yields the new
content. -/
theorem splice_readback (l new : List Nat) (a : Nat) (ha : a ≤ l.length) :
    ((splice l a new).drop a).take new.length = new := by
  apply List.ext_getElem?
  intro n
  rw [List.getElem?_take]
  split
  · rw [List.getElem?_drop, splice_getElem?_inside l new a n ha (by assumption)]
  · exact (List.getElem?_eq_none (by omega)).symm

/-- One compression round preserves the length of the working state. -/
theorem sha256Round_length (st : List Nat) (kw : Nat × Nat) :
    (sha256Round st kw).length = st.length := by
  unfold sha256Round
  split
  · simp_all
  · rfl

/-- Folding compression rounds preserves the length of the working state. -/
theorem foldl_sha256Round_length (l : List (Nat × Nat)) :
    ∀ st : List Nat, (l.foldl sha256Round st).length = st.length := by
  induction l with
  | nil => intro st; rfl
  | cons kw l ih =>
    intro st
    rw [List.foldl_cons, ih, sha256Round_length]

/-- Block compression preserves the length of the hash value. -/
theorem sha256Compress_length (H block : List Nat) :
    (sha256Compress H block).length = H.length := by
  unfold sha256Compress
  rw [List.length_map, List.length_zip, foldl_sha256Round_length]
  omega

/-- Folding block compression preserves the length of the hash value. -/
theorem foldl_sha256Compress_length (blocks : List (List Nat)) :
    ∀ H : List Nat, (blocks.foldl sha256Compress H).length = H.length := by
  induction blocks with
  | nil => intro H; rfl
  | cons b blocks ih =>
    intro H
    rw [List.foldl_cons, ih, sha256Compress_length]

/-- Serializing the hash words yields four bytes per word. -/
theorem foldr_words_length (H : List Nat) :
    (H.foldr (fun w acc => natToBytesBE w 4 ++ acc) []).length = 4 * H.length := by
  induction H with
  | nil => rfl
  | cons w H ih =>
    rw [List.foldr_cons, List.length_append, ih]
    simp [natToBytesBE]
    omega

/-- The SHA-256 digest is always 32 bytes long. -/
theorem sha256_length (msg : List Nat) : (sha256 msg).length = 32 := by
  unfold sha256
  rw [foldr_words_length, foldl_sha256Compress_length]
  rfl

/-- The binarized value is positive exactly when the luminance is strictly
above the fixed threshold 128. -/
theorem threshold_pixel_pos (l : Nat) : threshold_pixel l > 0 ↔ 128 < l := by
  unfold threshold_pixel
  split
  · simpa using ‹l > 128›
  · simpa using ‹¬ l > 128›

/-- Bit extraction for a fold that conditionally ORs in single distinct
bits: bit `j` of the result is bit `j` of the accumulator, or else some
enabled element maps to position `j`. -/
theorem testBit_foldl_orbits (f : Nat → Bool) (g : Nat → Nat) :
    ∀ (bits : List Nat) (acc j : Nat),
      Nat.testBit
        (bits.foldl (fun v b => if f b then v ||| (1 <<< g b) else v) acc) j
      = (Nat.testBit acc j || bits.any (fun b => f b && decide (g b = j))) := by
  intro bits
  induction bits with
  | nil => intro acc j; simp
  | cons b bs ih =>
    intro acc j
    rw [List.foldl_cons, ih, List.any_cons]
    by_cases hb : f b = true
    · rw [if_pos hb, hb, Nat.testBit_or, Nat.one_shiftLeft, Nat.testBit_two_pow]
      cases Nat.testBit acc j <;> cases hgb : decide (g b = j) <;> simp
    · rw [if_neg (by simp [hb]), Bool.eq_false_iff.mpr hb]
      simp

/-- Bit extraction for `packByte`: bit `j` of the packed byte is set exactly
when some bit index below 8 maps to position `j`, lies within the width, and
its binarized pixel is on. -/
theorem packByte_testBit (lum : Nat → Nat → Nat) (width y byte_x j : Nat) :
    Nat.testBit (packByte lum width y byte_x) j
      = (List.range 8).any (fun bit =>
          (decide (byte_x * 8 + bit < width) &&
            decide (threshold_pixel (lum (byte_x * 8 + bit) y) > 0)) &&
          decide (7 - bit = j)) := by
  have hfun :
      (fun (byte_val : Nat) (bit : Nat) =>
        if byte_x * 8 + bit < width then
          if threshold_pixel (lum (byte_x * 8 + bit) y) > 0 then
            byte_val ||| (1 <<< (7 - bit))
          else byte_val
        else byte_val)
      = (fun (v : Nat) (b : Nat) =>
          if (decide (byte_x * 8 + b < width) &&
              decide (threshold_pixel (lum (byte_x * 8 + b) y) > 0)) = true then
            v ||| (1 <<< (7 - b))
          else v) := by
    funext v b
    by_cases h1 : byte_x * 8 + b < width
    · by_cases h2 : threshold_pixel (lum (byte_x * 8 + b) y) > 0
      · simp [h1, h2]
      · simp [h1, h2]
    · simp [h1]
  rw [packByte, hfun,
    testBit_foldl_orbits
      (fun b => decide (byte_x * 8 + b < width) &&
        decide (threshold_pixel (lum (byte_x * 8 + b) y) > 0))
      (fun b => 7 - b) (List.range 8) 0 j,
    Nat.zero_testBit, Bool.false_or]

/-- Indexing a flattening of equal-length rows: entry `i * m + j` is entry
`j` of row `i`. -/
theorem flatten_getD_uniform {α : Type} (m : Nat) :
    ∀ (L : List (List α)) (i j : Nat) (d : α),
      (∀ r ∈ L, r.length = m) → i < L.length → j < m →
      L.flatten.getD (i * m + j) d = (L.getD i []).getD j d := by
  intro L
  induction L with
  | nil => intro i j d _ hi; simp at hi
  | cons r rest ih =>
    intro i j d hlen hi hj
    have hr : r.length = m := hlen r (by simp)
    cases i with
    | zero =>
      simp only [List.flatten_cons, Nat.zero_mul, Nat.zero_add,
        List.getD_eq_getElem?_getD, List.getElem?_append]
      rw [if_pos (by omega)]
      simp
    | succ i =>
      have hstep : (i + 1) * m + j = r.length + (i * m + j) := by
        rw [hr]; ring
      rw [List.flatten_cons, List.getD_cons_succ, List.getD_eq_getElem?_getD,
        hstep, List.getElem?_append_right (by omega)]
      have h2 : r.length + (i * m + j) - r.length = i * m + j := by omega
      rw [h2, ← List.getD_eq_getElem?_getD]
      exact ih i j d (fun s hs => hlen s (by simp [hs])) (by simpa using hi) hj

/-- The byte at flat index `y * bytes_per_row + byte_x` of the packed pixel
data is the packed byte of row `y`, byte column `byte_x`. -/
theorem image_to_pixel_data_getD (lum : Nat → Nat → Nat) (w h y byte_x : Nat)
    (hy : y < h) (hbx : byte_x < (w + 7) / 8) :
    (image_to_pixel_data lum w h).getD (y * ((w + 7) / 8) + byte_x) 0
      = packByte lum w y byte_x := by
  unfold image_to_pixel_data
  rw [flatten_getD_uniform ((w + 7) / 8) _ y byte_x 0 ?_ (by simpa using hy) hbx]
  · simp only [List.getD_eq_getElem?_getD, List.getElem?_map,
      List.getElem?_range hy, Option.map_some]
    simp only [Option.getD_some, ← List.getD_eq_getElem?_getD]
    simp [List.getD_eq_getElem?_getD, List.getElem?_map, List.getElem?_range hbx]
  · intro r hr
    obtain ⟨yy, _, rfl⟩ := List.mem_map.mp hr
    simp

/-- The packed pixel data has exactly `bytes_per_row * height` bytes. -/
theorem image_to_pixel_data_length (lum : Nat → Nat → Nat) (w h : Nat) :
    (image_to_pixel_data lum w h).length = ((w + 7) / 8) * h := by
  unfold image_to_pixel_data
  rw [List.length_flatten, List.map_map]
  have : (List.map (List.length ∘ fun y =>
      (List.range ((w + 7) / 8)).map (packByte lum w y)) (List.range h))
      = List.replicate h ((w + 7) / 8) := by
    refine List.eq_replicate_iff.mpr ⟨by simp, ?_⟩
    intro a ha
    obtain ⟨yy, _, rfl⟩ := List.mem_map.mp ha
    simp
  rw [this, List.sum_replicate]
  simp [Nat.mul_comm]

/-- Inversion of a successful image location: the components come from the
two marker searches. -/
theorem find_image_eq_some (fw : List Nat) (s sz e : Nat)
    (h : find_image_data_location fw = some (s, sz, e)) :
    ∃ st, findSub fw MAGIC_START 0 = some st ∧ s = st + 9 ∧
      findSub fw MAGIC_END s = some e ∧ sz = e - s := by
  unfold find_image_data_location at h
  split at h
  · cases h
  · rename_i st hst
    split at h
    · cases h
    · rename_i ed hed
      simp only [Option.some_inj, Prod.mk.injEq] at h
      obtain ⟨h1, h2, h3⟩ := h
      have hlen : MAGIC_START.length = 9 := by decide
      rw [hlen] at h1 h2 hed
      subst h3
      refine ⟨st, hst, by omega, ?_, by omega⟩
      have hs : s = st + 9 := by omega
      rw [hs]
      exact hed

/-- Inversion of a successful hash location: the components come from the
two marker searches. -/
theorem find_hash_eq_some (fw : List Nat) (hs hsz : Nat)
    (h : find_hash_location fw = some (hs, hsz)) :
    ∃ st, findSub fw HASH_MAGIC_START 0 = some st ∧ hs = st + 8 ∧
      findSub fw HASH_MAGIC_END hs = some (hs + hsz) := by
  unfold find_hash_location at h
  split at h
  · cases h
  · rename_i st hst
    split at h
    · cases h
    · rename_i ed hed
      simp only [Option.some_inj, Prod.mk.injEq] at h
      obtain ⟨h1, h2⟩ := h
      have hlen : HASH_MAGIC_START.length = 8 := by decide
      rw [hlen] at h1 h2 hed
      have hse := findSub_spec fw HASH_MAGIC_END (st + 8) ed hed
      have hed2 : ed = hs + hsz := by omega
      have hhs : hs = st + 8 := by omega
      refine ⟨st, hst, hhs, ?_⟩
      rw [hhs]
      have hfin : st + 8 + hsz = ed := by omega
      rw [hfin]
      exact hed

/-- Unfolding of a successful patch when no hash region is located in the
image-patched data. -/
theorem patch_eq_no_hash (fw pix : List Nat) (s sz e : Nat)
    (hfind : find_image_data_location fw = some (s, sz, e))
    (hlen : pix.length = sz)
    (hnone : find_hash_location (splice fw s pix) = none) :
    patch_firmware_bytes fw pix =
      Except.ok ⟨splice fw s pix, s, sz, (sha256 pix).take 8, none, none⟩ := by
  simp only [patch_firmware_bytes, hfind, hlen, ne_eq, not_true_eq_false,
    if_false, hnone]

/-- Unfolding of a successful patch when an 8-byte hash region is located in
the image-patched data. -/
theorem patch_eq_hash (fw pix : List Nat) (s sz e hs : Nat)
    (hfind : find_image_data_location fw = some (s, sz, e))
    (hlen : pix.length = sz)
    (hsome : find_hash_location (splice fw s pix) = some (hs, 8)) :
    patch_firmware_bytes fw pix =
      Except.ok ⟨splice (splice fw s pix) hs ((sha256 pix).take 8), s, sz,
        (sha256 pix).take 8, some hs, some 8⟩ := by
  simp only [patch_firmware_bytes, hfind, hlen, ne_eq, not_true_eq_false,
    if_false, hsome]

/-- Inversion of a successful patch: the image slot was located, the size
matched, and the result is one of the two success shapes. -/
theorem patch_ok_cases (fw pix : List Nat) (r : PatchResult)
    (h : patch_firmware_bytes fw pix = Except.ok r) :
    ∃ s sz e, find_image_data_location fw = some (s, sz, e) ∧
      pix.length = sz ∧ r.image_start = s ∧ r.image_size = sz ∧
      r.hash_bytes = (sha256 pix).take 8 ∧
      ((find_hash_location (splice fw s pix) = none ∧
        r.patched = splice fw s pix ∧ r.hash_start = none ∧ r.hash_size = none) ∨
       (∃ hs, find_hash_location (splice fw s pix) = some (hs, 8) ∧
        r.patched = splice (splice fw s pix) hs r.hash_bytes ∧
        r.hash_start = some hs ∧ r.hash_size = some 8)) := by
  unfold patch_firmware_bytes at h
  split at h
  · cases h
  · rename_i s sz e hfind
    split at h
    · cases h
    · rename_i hlen
      have hlen2 : pix.length = sz := by omega
      simp only [] at h
      split at h
      · rename_i hhash
        simp only [Except.ok.injEq] at h
        refine ⟨s, sz, e, hfind, hlen2, ?_, ?_, ?_, Or.inl ⟨hhash, ?_, ?_, ?_⟩⟩ <;>
          rw [← h]
      · rename_i hs hsz hhash
        split at h
        · cases h
        · rename_i hsz8
          have hsz8' : hsz = 8 := by omega
          subst hsz8'
          simp only [Except.ok.injEq] at h
          refine ⟨s, sz, e, hfind, hlen2, ?_, ?_, ?_,
            Or.inr ⟨hs, hhash, ?_, ?_, ?_⟩⟩ <;> rw [← h]

/-- The hex rendering of a byte list has two characters per byte. -/
theorem bytesHex_length (bs : List Nat) : (bytesHex bs).length = 2 * bs.length := by
  induction bs with
  | nil => rfl
  | cons b bs ih =>
    simp only [bytesHex, List.foldr_cons] at ih ⊢
    simp [ih]
    omega

/-- Every character of the hex rendering is a hex digit of a value below
16. -/
theorem mem_bytesHex (bs : List Nat) :
    ∀ c ∈ bytesHex bs, ∃ n, n < 16 ∧ c = hexDigit n := by
  induction bs with
  | nil => intro c hc; cases hc
  | cons b bs ih =>
    intro c hc
    simp only [bytesHex, List.foldr_cons, List.mem_cons] at hc
    rcases hc with hc | hc | hc
    · exact ⟨b / 16 % 16, Nat.mod_lt _ (by omega), hc⟩
    · exact ⟨b % 16, Nat.mod_lt _ (by omega), hc⟩
    · exact ih c hc

/-- Uppercasing a hex digit of a value below 16 lands in the uppercase
hexadecimal alphabet. -/
theorem hexDigit_toUpper_mem (n : Nat) (hn : n < 16) :
    Char.toUpper (hexDigit n) ∈ hexUpperChars := by
  interval_cases n <;> decide

/-- Validation of the SHA-256 model against the FIPS test vector for the
empty message. -/
theorem sha256_empty_vector :
    sha256 [] =
      [0xe3, 0xb0, 0xc4, 0x42, 0x98, 0xfc, 0x1c, 0x14,
       0x9a, 0xfb, 0xf4, 0xc8, 0x99, 0x6f, 0xb9, 0x24,
       0x27, 0xae, 0x41, 0xe4, 0x64, 0x9b, 0x93, 0x4c,
       0xa4, 0x95, 0x99, 0x1b, 0x78, 0x52, 0xb8, 0x55] := by
  decide

/-- Validation of the SHA-256 model against the FIPS test vector for the
three-byte message "abc". -/
theorem sha256_abc_vector :
    sha256 [0x61, 0x62, 0x63] =
      [0xba, 0x78, 0x16, 0xbf, 0x8f, 0x01, 0xcf, 0xea,
       0x41, 0x41, 0x40, 0xde, 0x5d, 0xae, 0x22, 0x23,
       0xb0, 0x03, 0x61, 0xa3, 0x96, 0x17, 0x7a, 0x9c,
       0xb4, 0x10, 0xff, 0x61, 0xf2, 0x00, 0x15, 0xad] := by
  decide

/-- C3: for every raster and every target width and height, the encoded
pixel buffer has length exactly `ceil(width/8) * height = ((width+7)/8) *
height`; in particular for the system's fixed 240×96 target the length is
always 2880 bytes. -/
theorem claim_C3 (lum : Nat → Nat → Nat) (w h : Nat) :
    (image_to_pixel_data lum w h).length = ((w + 7) / 8) * h
    ∧ (image_to_pixel_data lum 240 96).length = 2880 := by
  refine ⟨image_to_pixel_data_length lum w h, ?_⟩
  rw [image_to_pixel_data_length]

/-- C4: in the binarization step a luminance strictly above 128 produces an
on bit (1) and a luminance of 128 or less produces an off bit (0); in
particular 128 maps to 0 and 129 maps to 1, with the fixed threshold baked
into `threshold_pixel`. -/
theorem claim_C4 (l : Nat) :
    ((if threshold_pixel l > 0 then 1 else 0) = 1 ↔ 128 < l)
    ∧ (if threshold_pixel 128 > 0 then 1 else 0) = 0
    ∧ (if threshold_pixel 129 > 0 then 1 else 0) = 1 := by
  refine ⟨?_, by decide, by decide⟩
  by_cases h : 128 < l
  · simp [threshold_pixel, h]
  · simp [threshold_pixel, h]

/-- C10: region location uses first-occurrence semantics: a successful image
location starts immediately after the earliest occurrence of the image-start
marker, ends at the earliest occurrence of the image-end marker at or after
that point, and a successful patch uses exactly that located region. -/
theorem claim_C10 (fw : List Nat) (s sz e : Nat)
    (h : find_image_data_location fw = some (s, sz, e)) :
    occursAt fw MAGIC_START (s - 9)
    ∧ (∀ j, occursAt fw MAGIC_START j → s - 9 ≤ j)
    ∧ occursAt fw MAGIC_END e
    ∧ (∀ j, s ≤ j → occursAt fw MAGIC_END j → e ≤ j)
    ∧ sz = e - s
    ∧ (∀ pix r, patch_firmware_bytes fw pix = Except.ok r →
        r.image_start = s ∧ r.image_size = sz) := by
  obtain ⟨st, hst, hs9, hend, hsze⟩ := find_image_eq_some fw s sz e h
  obtain ⟨_, host, hmin⟩ := findSub_spec fw MAGIC_START 0 st hst
  obtain ⟨hse, hoend, hminend⟩ := findSub_spec fw MAGIC_END s e hend
  have hsub : s - 9 = st := by omega
  rw [hsub]
  refine ⟨host, ?_, hoend, ?_, hsze, ?_⟩
  · intro j hj
    by_contra hcon
    exact hmin j (by omega) (by omega) hj
  · intro j hj hocc
    by_contra hcon
    exact hminend j hj (by omega) hocc
  · intro pix r hr
    obtain ⟨s', sz', e', hfind', hlen', h1, h2, _, _⟩ := patch_ok_cases fw pix r hr
    rw [h] at hfind'
    simp only [Option.some_inj, Prod.mk.injEq] at hfind'
    obtain ⟨ha, hb, _⟩ := hfind'
    exact ⟨by omega, by omega⟩

/-- Witness for C10: on the concrete two-region template only the earliest
region is located, as the instantiated minimality bounds show. -/
theorem claim_C10_witness :
    occursAt fwTwoRegions MAGIC_START (9 - 9)
    ∧ 9 - 9 ≤ 20 ∧ (10 : Nat) ≤ 31 := by
  have hc := claim_C10 fwTwoRegions 9 1 10 (by decide)
  exact ⟨hc.1, hc.2.1 20 (by decide), hc.2.2.2.1 31 (by decide) (by decide)⟩

/-- C2: the patcher raises exactly when the image region is missing, the
slot size differs from the supplied buffer length (with the error message
carrying both sizes), or a located hash region does not declare exactly 8
bytes; in every other case it returns a result. -/
theorem claim_C2 (fw pix : List Nat) :
    ((∃ msg, patch_firmware_bytes fw pix = Except.error msg) ↔
      (find_image_data_location fw = none
       ∨ (∃ s sz e, find_image_data_location fw = some (s, sz, e) ∧ pix.length ≠ sz)
       ∨ (∃ s sz e hs hsz, find_image_data_location fw = some (s, sz, e)
          ∧ pix.length = sz
          ∧ find_hash_location (splice fw s pix) = some (hs, hsz) ∧ hsz ≠ 8)))
    ∧ (∀ s sz e, find_image_data_location fw = some (s, sz, e) → pix.length ≠ sz →
        patch_firmware_bytes fw pix = Except.error
          ("Image size mismatch. Firmware expects " ++ toString sz ++
           " bytes but received " ++ toString pix.length ++ " bytes.")) := by
  constructor
  · rcases hfind : find_image_data_location fw with _ | ⟨s, sz, e⟩
    · have hp : patch_firmware_bytes fw pix = Except.error
          "Could not find image data in firmware. Ensure the binary includes the expected magic bytes." := by
        simp only [patch_firmware_bytes, hfind]
      exact ⟨fun _ => Or.inl rfl, fun _ => ⟨_, hp⟩⟩
    · by_cases hlen : pix.length = sz
      · rcases hh : find_hash_location (splice fw s pix) with _ | ⟨hs, hsz⟩
        · have hp := patch_eq_no_hash fw pix s sz e hfind hlen hh
          constructor
          · rintro ⟨msg, hmsg⟩
            rw [hp] at hmsg
            cases hmsg
          · intro hr
            exfalso
            rcases hr with h1 | h2 | h3
            · exact Option.noConfusion h1
            · obtain ⟨s', sz', e', hf', hne⟩ := h2
              simp only [Option.some_inj, Prod.mk.injEq] at hf'
              omega
            · obtain ⟨s', sz', e', hs', hsz', hf', _, hh', _⟩ := h3
              simp only [Option.some_inj, Prod.mk.injEq] at hf'
              obtain ⟨ha, _, _⟩ := hf'
              subst ha
              rw [hh] at hh'
              cases hh'
        · by_cases h8 : hsz = 8
          · subst h8
            have hp := patch_eq_hash fw pix s sz e hs hfind hlen hh
            constructor
            · rintro ⟨msg, hmsg⟩
              rw [hp] at hmsg
              cases hmsg
            · intro hr
              exfalso
              rcases hr with h1 | h2 | h3
              · exact Option.noConfusion h1
              · obtain ⟨s', sz', e', hf', hne⟩ := h2
                simp only [Option.some_inj, Prod.mk.injEq] at hf'
                omega
              · obtain ⟨s', sz', e', hs', hsz', hf', _, hh', hne⟩ := h3
                simp only [Option.some_inj, Prod.mk.injEq] at hf'
                obtain ⟨ha, _, _⟩ := hf'
                subst ha
                rw [hh] at hh'
                simp only [Option.some_inj, Prod.mk.injEq] at hh'
                omega
          · have hp : patch_firmware_bytes fw pix = Except.error
                ("Hash size mismatch. Expected 8 bytes but firmware reserves " ++
                  toString hsz ++ " bytes.") := by
              simp only [patch_firmware_bytes, hfind, hlen, ne_eq,
                not_true_eq_false, if_false, hh]
              rw [if_pos h8]
            exact ⟨fun _ => Or.inr (Or.inr ⟨s, sz, e, hs, hsz, rfl, hlen, hh, h8⟩),
                   fun _ => ⟨_, hp⟩⟩
      · have hp : patch_firmware_bytes fw pix = Except.error
            ("Image size mismatch. Firmware expects " ++ toString sz ++
             " bytes but received " ++ toString pix.length ++ " bytes.") := by
          simp only [patch_firmware_bytes, hfind]
          rw [if_pos hlen]
        exact ⟨fun _ => Or.inr (Or.inl ⟨s, sz, e, rfl, hlen⟩),
               fun _ => ⟨_, hp⟩⟩
  · intro s sz e hfind hne
    simp only [patch_firmware_bytes, hfind]
    rw [if_pos hne]

/-- Witness for C2: on the concrete 3-byte slot template a 2-byte buffer
yields exactly the size-mismatch error carrying both sizes. -/
theorem claim_C2_witness :
    patch_firmware_bytes fwImageOnly [1, 2] = Except.error
      ("Image size mismatch. Firmware expects " ++ toString 3 ++
       " bytes but received " ++ toString 2 ++ " bytes.") :=
  (claim_C2 fwImageOnly [1, 2]).2 9 3 12 (by decide) (by decide)

/-- Bit `7 - r` of a packed byte (for `r < 8`) is set exactly when pixel
`byte_x * 8 + r` is inside the width and its binarized value is positive. -/
theorem testBit_packByte_val (lum : Nat → Nat → Nat) (w y bx r : Nat)
    (hr : r < 8) :
    Nat.testBit (packByte lum w y bx) (7 - r)
      = (decide (bx * 8 + r < w) &&
          decide (threshold_pixel (lum (bx * 8 + r) y) > 0)) := by
  rw [packByte_testBit]
  have h8 : List.range 8 = [0, 1, 2, 3, 4, 5, 6, 7] := rfl
  rw [h8]
  simp only [List.any_cons, List.any_nil, Bool.or_false]
  interval_cases r <;> simp

/-- In the last byte of a row whose width is not a multiple of 8, the unused
low-order bit positions are 0. -/
theorem packByte_pad (lum : Nat → Nat → Nat) (w y j : Nat) (_hw : w % 8 ≠ 0)
    (hj : j + w % 8 < 8) :
    Nat.testBit (packByte lum w y (w / 8)) j = false := by
  rw [packByte_testBit]
  have h8 : List.range 8 = [0, 1, 2, 3, 4, 5, 6, 7] := rfl
  rw [h8]
  simp only [List.any_cons, List.any_nil, Bool.or_false]
  have key : ∀ bit c,
      ((decide (w / 8 * 8 + bit < w) && c) && decide (7 - bit = j)) = false := by
    intro bit c
    by_cases hbj : 7 - bit = j
    · have hnlt : ¬ (w / 8 * 8 + bit < w) := by omega
      simp [hnlt]
    · simp [hbj]
  simp only [key, Bool.or_false]

/-- C5: the encoder packs row-major, top-to-bottom: the binarized pixel at
column `x` of row `y` lands in byte `y * ceil(w/8) + x/8` at bit position
`7 - x % 8` (leftmost pixel in the most significant bit), and when the width
is not a multiple of 8 the unused low-order bits of each row's last byte
are 0. -/
theorem claim_C5 (lum : Nat → Nat → Nat) (w h x y j : Nat) :
    (x < w → y < h →
      Nat.testBit
        ((image_to_pixel_data lum w h).getD (y * ((w + 7) / 8) + x / 8) 0)
        (7 - x % 8) = decide (128 < lum x y))
    ∧ (y < h → w % 8 ≠ 0 → j + w % 8 < 8 →
      Nat.testBit
        ((image_to_pixel_data lum w h).getD (y * ((w + 7) / 8) + w / 8) 0)
        j = false) := by
  constructor
  · intro hx hy
    rw [image_to_pixel_data_getD lum w h y (x / 8) hy (by omega)]
    have hr : x % 8 < 8 := Nat.mod_lt _ (by omega)
    rw [testBit_packByte_val lum w y (x / 8) (x % 8) hr]
    have hx8 : x / 8 * 8 + x % 8 = x := by omega
    rw [hx8]
    simp [hx, threshold_pixel_pos]
  · intro hy hw hj
    rw [image_to_pixel_data_getD lum w h y (w / 8) hy (by omega)]
    exact packByte_pad lum w y j hw hj

/-- Witness for C5: on the concrete checkerboard raster at 10×2, pixel (3,1)
lands at byte 2, bit 4, and bit position 2 of the last byte of row 0 is
padding 0. -/
theorem claim_C5_witness :
    Nat.testBit
      ((image_to_pixel_data lumStripes 10 2).getD (1 * ((10 + 7) / 8) + 3 / 8) 0)
      (7 - 3 % 8) = decide (128 < lumStripes 3 1)
    ∧ Nat.testBit
      ((image_to_pixel_data lumStripes 10 2).getD (0 * ((10 + 7) / 8) + 10 / 8) 0)
      2 = false :=
  ⟨(claim_C5 lumStripes 10 2 3 1 2).1 (by decide) (by decide),
   (claim_C5 lumStripes 10 2 3 0 2).2 (by decide) (by decide) (by decide)⟩

/-- Truncating the 32-byte digest to its first 8 bytes yields exactly 8
bytes. -/
theorem sha256_take8_length (pix : List Nat) :
    ((sha256 pix).take 8).length = 8 := by
  rw [List.length_take, sha256_length]
  omega

/-- C6 (amended): for every firmware whose located image slot matches the
supplied buffer length and whose image-patched copy contains no hash marker
pair, the patch succeeds without raising, embeds no hash (the output is
exactly the image-spliced copy), reports the hash region offset and length
as absent, and still returns the computed 8-byte truncated hash. -/
theorem claim_C6 (fw pix : List Nat) (s sz e : Nat)
    (hfind : find_image_data_location fw = some (s, sz, e))
    (hlen : pix.length = sz)
    (hnone : find_hash_location (splice fw s pix) = none) :
    patch_firmware_bytes fw pix =
      Except.ok ⟨splice fw s pix, s, sz, (sha256 pix).take 8, none, none⟩ :=
  patch_eq_no_hash fw pix s sz e hfind hlen hnone

/-- Witness for C6: the concrete hash-free template is patched successfully
with the hash region reported absent. -/
theorem claim_C6_witness :
    patch_firmware_bytes fwImageOnly [1, 2, 3] =
      Except.ok ⟨splice fwImageOnly 9 [1, 2, 3], 9, 3,
        (sha256 [1, 2, 3]).take 8, none, none⟩ :=
  claim_C6 fwImageOnly [1, 2, 3] 9 3 12 (by decide) (by decide) (by decide)

/-- Counterexample for C6 as stated: `fwPlainSlot23` contains no hash
marker at all, yet patching it with a pixel buffer that spells out a marker
pair succeeds with the hash region reported as present (offset 17) and the
hash embedded, because the hash search runs on the image-patched copy. -/
theorem claim_C6_counterexample :
    findSub fwPlainSlot23 HASH_MAGIC_START 0 = none
    ∧ findSub fwPlainSlot23 HASH_MAGIC_END 0 = none
    ∧ patch_firmware_bytes fwPlainSlot23 pixHashMarkers =
        Except.ok ⟨[69, 65, 84, 70, 82, 85, 73, 84, 83, 72, 65, 83, 72, 68,
          65, 84, 65, 222, 141, 230, 254, 60, 150, 16, 114, 72, 65, 83, 72,
          69, 78, 68, 67, 82, 85, 77, 80, 83, 80, 65, 67, 69],
          9, 23, [222, 141, 230, 254, 60, 150, 16, 114], some 17, some 8⟩ := by
  decide

/-- C9 (amended): when the image-patched copy contains the hash-start
marker with no hash-end marker after it (or no hash-start marker at all),
the patcher treats the hash region exactly as absent: no error, no hash
embedded, and the hash offset and length are reported as `none`. -/
theorem claim_C9 (fw pix : List Nat) (s sz e : Nat)
    (hfind : find_image_data_location fw = some (s, sz, e))
    (hlen : pix.length = sz)
    (hpart : findSub (splice fw s pix) HASH_MAGIC_START 0 = none
      ∨ ∃ p, findSub (splice fw s pix) HASH_MAGIC_START 0 = some p
        ∧ findSub (splice fw s pix) HASH_MAGIC_END (p + 8) = none) :
    patch_firmware_bytes fw pix =
      Except.ok ⟨splice fw s pix, s, sz, (sha256 pix).take 8, none, none⟩ := by
  have hl : HASH_MAGIC_START.length = 8 := by decide
  have hnone : find_hash_location (splice fw s pix) = none := by
    rcases hpart with hn | ⟨p, hp, hpe⟩
    · simp only [find_hash_location, hn]
    · simp only [find_hash_location, hp, hl, hpe]
  exact patch_eq_no_hash fw pix s sz e hfind hlen hnone

/-- Witness for C9: the concrete template carrying a hash-start marker but
no hash-end marker patches successfully with the hash region reported
absent. -/
theorem claim_C9_witness :
    patch_firmware_bytes fwHashStartOnly (List.replicate 7 0) =
      Except.ok ⟨splice fwHashStartOnly 17 (List.replicate 7 0), 17, 7,
        (sha256 (List.replicate 7 0)).take 8, none, none⟩ :=
  claim_C9 fwHashStartOnly (List.replicate 7 0) 17 7 24 (by decide) (by decide)
    (Or.inr ⟨0, by decide, by decide⟩)

/-- Counterexample for C9 as stated: `fwHashStartOnly` contains the
hash-start marker with no hash-end marker after it, yet patching it with a
pixel buffer that spells out the hash-end marker raises a hash-size error
instead of treating the region as absent, because the search runs on the
image-patched copy. -/
theorem claim_C9_counterexample :
    findSub fwHashStartOnly HASH_MAGIC_START 0 = some 0
    ∧ findSub fwHashStartOnly HASH_MAGIC_END 8 = none
    ∧ patch_firmware_bytes fwHashStartOnly HASH_MAGIC_END =
        Except.error
          "Hash size mismatch. Expected 8 bytes but firmware reserves 9 bytes." := by
  decide

/-- C7: the hash returned by a successful patch is exactly the first 8
bytes of the SHA-256 digest of the supplied pixel buffer, it depends on the
pixel buffer alone (two successful patches of different firmwares with the
same buffer agree), and its caller-facing rendering is 16 uppercase
hexadecimal characters. -/
theorem claim_C7 (fw fw2 pix : List Nat) (r r2 : PatchResult)
    (hr : patch_firmware_bytes fw pix = Except.ok r)
    (hr2 : patch_firmware_bytes fw2 pix = Except.ok r2) :
    r.hash_bytes = (sha256 pix).take 8
    ∧ r2.hash_bytes = r.hash_bytes
    ∧ (firmware_hash_of r.hash_bytes).length = 16
    ∧ ∀ c ∈ firmware_hash_of r.hash_bytes, c ∈ hexUpperChars := by
  obtain ⟨s, sz, e, _, _, _, _, hhb, _⟩ := patch_ok_cases fw pix r hr
  obtain ⟨s2, sz2, e2, _, _, _, _, hhb2, _⟩ := patch_ok_cases fw2 pix r2 hr2
  have hlen8 : r.hash_bytes.length = 8 := by
    rw [hhb]
    exact sha256_take8_length pix
  refine ⟨hhb, by rw [hhb2, hhb], ?_, ?_⟩
  · unfold firmware_hash_of
    rw [List.length_map, bytesHex_length, hlen8]
  · intro c hc
    unfold firmware_hash_of at hc
    obtain ⟨d, hd, rfl⟩ := List.mem_map.mp hc
    obtain ⟨n, hn, rfl⟩ := mem_bytesHex _ d hd
    exact hexDigit_toUpper_mem n hn

/-- Witness for C7: two concrete templates patched with the same buffer
yield the truncated SHA-256 of the buffer, rendered over the uppercase
hexadecimal alphabet. -/
theorem claim_C7_witness :
    (⟨[69, 65, 84, 70, 82, 85, 73, 84, 83, 1, 2, 3, 67, 82, 85, 77, 80, 83,
       80, 65, 67, 69], 9, 3, [3, 144, 88, 198, 242, 192, 203, 73], none,
       none⟩ : PatchResult).hash_bytes = (sha256 [1, 2, 3]).take 8
    ∧ '0' ∈ hexUpperChars := by
  have hc := claim_C7 fwImageOnly fwImageOnly2 [1, 2, 3]
    ⟨[69, 65, 84, 70, 82, 85, 73, 84, 83, 1, 2, 3, 67, 82, 85, 77, 80, 83,
      80, 65, 67, 69], 9, 3, [3, 144, 88, 198, 242, 192, 203, 73], none, none⟩
    ⟨[69, 65, 84, 70, 82, 85, 73, 84, 83, 1, 2, 3, 67, 82, 85, 77, 80, 83,
      80, 65, 67, 69], 9, 3, [3, 144, 88, 198, 242, 192, 203, 73], none, none⟩
    (by decide) (by decide)
  exact ⟨hc.1, hc.2.2.2 '0' (by decide)⟩

/-- C8: the patcher is a pure function of an immutable input: on success the
output has exactly the input's total length, and every byte outside the
image slot and (when present) the 8-byte hash slot equals the corresponding
input byte; on error the `Except.error` branch carries only a message and no
patched buffer. -/
theorem claim_C8 (fw pix : List Nat) (r : PatchResult)
    (h : patch_firmware_bytes fw pix = Except.ok r) :
    r.patched.length = fw.length
    ∧ ∀ i, (i < r.image_start ∨ r.image_start + r.image_size ≤ i) →
        (∀ hs, r.hash_start = some hs → i < hs ∨ hs + 8 ≤ i) →
        r.patched[i]? = fw[i]? := by
  obtain ⟨s, sz, e, hfind, hlen, his, hisz, hhb, hcase⟩ := patch_ok_cases fw pix r h
  obtain ⟨st, hst, hs9, hend, hsze⟩ := find_image_eq_some fw s sz e hfind
  obtain ⟨hse, hoend, _⟩ := findSub_spec fw MAGIC_END s e hend
  have hebound : e + 10 ≤ fw.length := by
    have := occursAt_length_le fw MAGIC_END e (by decide) hoend
    simpa using this
  have hbound : s + pix.length ≤ fw.length := by omega
  have hsle : s ≤ fw.length := by omega
  rcases hcase with ⟨hnone, hpatched, hhs, hhsz⟩ | ⟨hs, hhash, hpatched, hhs, hhsz⟩
  · constructor
    · rw [hpatched]
      exact splice_length fw pix s hbound
    · intro i hi _
      rw [hpatched]
      rcases hi with hi | hi
      · exact splice_getElem?_left fw pix s i hsle (by omega)
      · exact splice_getElem?_right fw pix s i hsle (by omega)
  · have hfwlen : (splice fw s pix).length = fw.length := splice_length fw pix s hbound
    have hhblen : r.hash_bytes.length = 8 := by
      rw [hhb]
      exact sha256_take8_length pix
    obtain ⟨st2, hst2, hs8, hend2⟩ := find_hash_eq_some _ hs 8 hhash
    obtain ⟨_, hoend2, _⟩ := findSub_spec _ HASH_MAGIC_END hs (hs + 8) hend2
    have hhsbound : hs + 8 ≤ (splice fw s pix).length := by
      have := occursAt_length_le _ HASH_MAGIC_END (hs + 8) (by decide) hoend2
      omega
    have hhsle : hs ≤ (splice fw s pix).length := by omega
    constructor
    · rw [hpatched, splice_length _ _ _ (by rw [hhblen]; omega), hfwlen]
    · intro i hi hhashcond
      have hih : i < hs ∨ hs + 8 ≤ i := hhashcond hs hhs
      rw [hpatched]
      have step1 : (splice (splice fw s pix) hs r.hash_bytes)[i]?
          = (splice fw s pix)[i]? := by
        rcases hih with hih | hih
        · exact splice_getElem?_left _ _ _ _ hhsle hih
        · exact splice_getElem?_right _ _ _ _ hhsle (by rw [hhblen]; omega)
      rw [step1]
      rcases hi with hi | hi
      · exact splice_getElem?_left fw pix s i hsle (by omega)
      · exact splice_getElem?_right fw pix s i hsle (by omega)

/-- Witness for C8: the concrete patch of the hash-free template preserves
the total length and the byte at index 0. -/
theorem claim_C8_witness :
    (⟨[69, 65, 84, 70, 82, 85, 73, 84, 83, 1, 2, 3, 67, 82, 85, 77, 80, 83,
       80, 65, 67, 69], 9, 3, [3, 144, 88, 198, 242, 192, 203, 73], none,
       none⟩ : PatchResult).patched.length = fwImageOnly.length
    ∧ (⟨[69, 65, 84, 70, 82, 85, 73, 84, 83, 1, 2, 3, 67, 82, 85, 77, 80, 83,
       80, 65, 67, 69], 9, 3, [3, 144, 88, 198, 242, 192, 203, 73], none,
       none⟩ : PatchResult).patched[0]? = fwImageOnly[0]? := by
  have hc := claim_C8 fwImageOnly [1, 2, 3]
    ⟨[69, 65, 84, 70, 82, 85, 73, 84, 83, 1, 2, 3, 67, 82, 85, 77, 80, 83,
      80, 65, 67, 69], 9, 3, [3, 144, 88, 198, 242, 192, 203, 73], none, none⟩
    (by decide)
  exact ⟨hc.1, hc.2 0 (Or.inl (by decide)) (fun hs hhs => Option.noConfusion hhs)⟩

/-- C1 (amended): for every firmware with a located image slot whose size
equals the supplied pixel buffer, provided any hash region located in the
image-patched copy declares exactly 8 bytes and does not overlap the image
slot, the patch succeeds, reading back the image region at the returned
offset and length yields exactly the input buffer, and reading back the 8
bytes at the returned hash offset (when present) yields the computed
hash. -/
theorem claim_C1 (fw pix : List Nat) (s sz e : Nat)
    (hfind : find_image_data_location fw = some (s, sz, e))
    (hlen : pix.length = sz)
    (hhash : ∀ hs hsz, find_hash_location (splice fw s pix) = some (hs, hsz) →
      hsz = 8 ∧ (hs + 8 ≤ s ∨ s + sz ≤ hs)) :
    ∃ r, patch_firmware_bytes fw pix = Except.ok r
      ∧ r.image_start = s ∧ r.image_size = sz
      ∧ (r.patched.drop s).take sz = pix
      ∧ r.hash_bytes = (sha256 pix).take 8
      ∧ ∀ hs, r.hash_start = some hs → (r.patched.drop hs).take 8 = r.hash_bytes := by
  obtain ⟨st, hst, hs9, hend, hsze⟩ := find_image_eq_some fw s sz e hfind
  obtain ⟨hse, hoend, _⟩ := findSub_spec fw MAGIC_END s e hend
  have hebound : e + 10 ≤ fw.length := by
    have := occursAt_length_le fw MAGIC_END e (by decide) hoend
    simpa using this
  have hsle : s ≤ fw.length := by omega
  have hbound : s + pix.length ≤ fw.length := by omega
  rcases hh : find_hash_location (splice fw s pix) with _ | ⟨hs, hsz⟩
  · refine ⟨_, patch_eq_no_hash fw pix s sz e hfind hlen hh, rfl, rfl, ?_, rfl, ?_⟩
    · rw [← hlen]
      exact splice_readback fw pix s hsle
    · intro hs hcon
      exact Option.noConfusion hcon
  · obtain ⟨h8, hdisj⟩ := hhash hs hsz hh
    subst h8
    obtain ⟨st2, hst2, hs8eq, hend2⟩ := find_hash_eq_some _ hs 8 hh
    obtain ⟨_, hoend2, _⟩ := findSub_spec _ HASH_MAGIC_END hs (hs + 8) hend2
    have hfwlen : (splice fw s pix).length = fw.length := splice_length fw pix s hbound
    have hhsbound : hs + 8 ≤ (splice fw s pix).length := by
      have := occursAt_length_le _ HASH_MAGIC_END (hs + 8) (by decide) hoend2
      omega
    have hhsle : hs ≤ (splice fw s pix).length := by omega
    have hblen : ((sha256 pix).take 8).length = 8 := sha256_take8_length pix
    refine ⟨_, patch_eq_hash fw pix s sz e hs hfind hlen hh, rfl, rfl, ?_, rfl, ?_⟩
    · apply List.ext_getElem?
      intro n
      rw [List.getElem?_take]
      split
      · rename_i hn
        rw [List.getElem?_drop]
        have houter : (splice (splice fw s pix) hs ((sha256 pix).take 8))[s + n]?
            = (splice fw s pix)[s + n]? := by
          rcases hdisj with hd | hd
          · exact splice_getElem?_right _ _ _ _ hhsle (by rw [hblen]; omega)
          · exact splice_getElem?_left _ _ _ _ hhsle (by omega)
        rw [houter]
        exact splice_getElem?_inside fw pix s n hsle (by omega)
      · rename_i hn
        exact (List.getElem?_eq_none (by omega)).symm
    · intro hs' hcon
      have hseq : hs = hs' := Option.some.inj hcon
      subst hseq
      have hrb := splice_readback (splice fw s pix) ((sha256 pix).take 8) hs hhsle
      rw [hblen] at hrb
      exact hrb

set_option maxRecDepth 8000 in
/-- Witness for C1 (amended): the concrete template with a well-formed hash
region patches successfully, and reading back both the image region and the
hash region recovers the buffer and the hash. -/
theorem claim_C1_witness :
    patch_firmware_bytes fwWithHash [9, 9] = Except.ok
      ⟨[69, 65, 84, 70, 82, 85, 73, 84, 83, 9, 9, 67, 82, 85, 77, 80, 83, 80,
        65, 67, 69, 72, 65, 83, 72, 68, 65, 84, 65, 49, 96, 148, 38, 41, 115,
        37, 189, 72, 65, 83, 72, 69, 78, 68],
       9, 2, [49, 96, 148, 38, 41, 115, 37, 189], some 29, some 8⟩
    ∧ (([69, 65, 84, 70, 82, 85, 73, 84, 83, 9, 9, 67, 82, 85, 77, 80, 83, 80,
        65, 67, 69, 72, 65, 83, 72, 68, 65, 84, 65, 49, 96, 148, 38, 41, 115,
        37, 189, 72, 65, 83, 72, 69, 78, 68] : List Nat).drop 9).take 2 = [9, 9]
    ∧ (([69, 65, 84, 70, 82, 85, 73, 84, 83, 9, 9, 67, 82, 85, 77, 80, 83, 80,
        65, 67, 69, 72, 65, 83, 72, 68, 65, 84, 65, 49, 96, 148, 38, 41, 115,
        37, 189, 72, 65, 83, 72, 69, 78, 68] : List Nat).drop 29).take 8
      = [49, 96, 148, 38, 41, 115, 37, 189] := by
  have hdisch : ∀ hs hsz,
      find_hash_location (splice fwWithHash 9 [9, 9]) = some (hs, hsz) →
      hsz = 8 ∧ (hs + 8 ≤ 9 ∨ 9 + 2 ≤ hs) := by
    intro hs hsz hh
    rw [show find_hash_location (splice fwWithHash 9 [9, 9]) = some (29, 8) from
      by decide] at hh
    simp only [Option.some_inj, Prod.mk.injEq] at hh
    omega
  obtain ⟨r, hok, h1, h2, hread, hhb, hhash⟩ :=
    claim_C1 fwWithHash [9, 9] 9 2 11 (by decide) (by decide) hdisch
  have hlit : patch_firmware_bytes fwWithHash [9, 9] = Except.ok
      ⟨[69, 65, 84, 70, 82, 85, 73, 84, 83, 9, 9, 67, 82, 85, 77, 80, 83, 80,
        65, 67, 69, 72, 65, 83, 72, 68, 65, 84, 65, 49, 96, 148, 38, 41, 115,
        37, 189, 72, 65, 83, 72, 69, 78, 68],
       9, 2, [49, 96, 148, 38, 41, 115, 37, 189], some 29, some 8⟩ := by decide
  rw [hok] at hlit
  have hr := Except.ok.inj hlit
  subst hr
  exact ⟨hok, hread, hhash 29 rfl⟩

/-- Counterexample for C1 as stated: first, a firmware whose image markers
and slot size match the buffer still raises when its hash region declares 1
byte; second, a firmware with matching markers and size patches
successfully but reading back the image region does not return the input
buffer, because the buffer spells out hash markers and the computed hash is
spliced inside the image slot. -/
theorem claim_C1_counterexample :
    find_image_data_location fwHashSlotBad = some (9, 0, 9)
    ∧ ([] : List Nat).length = 0
    ∧ patch_firmware_bytes fwHashSlotBad [] = Except.error
        "Hash size mismatch. Expected 8 bytes but firmware reserves 1 bytes."
    ∧ find_image_data_location fwPlainSlot23 = some (9, 23, 32)
    ∧ pixHashMarkers.length = 23
    ∧ patch_firmware_bytes fwPlainSlot23 pixHashMarkers =
        Except.ok ⟨[69, 65, 84, 70, 82, 85, 73, 84, 83, 72, 65, 83, 72, 68,
          65, 84, 65, 222, 141, 230, 254, 60, 150, 16, 114, 72, 65, 83, 72,
          69, 78, 68, 67, 82, 85, 77, 80, 83, 80, 65, 67, 69],
          9, 23, [222, 141, 230, 254, 60, 150, 16, 114], some 17, some 8⟩
    ∧ (([69, 65, 84, 70, 82, 85, 73, 84, 83, 72, 65, 83, 72, 68, 65, 84, 65,
        222, 141, 230, 254, 60, 150, 16, 114, 72, 65, 83, 72, 69, 78, 68, 67,
        82, 85, 77, 80, 83, 80, 65, 67, 69] : List Nat).drop 9).take 23
      ≠ pixHashMarkers := by
  decide
